import Mathlib

/-!
Verification development for the PDF-outline extractor
(`pdf_processor.py` / `hierarchy_builder.py`).

The source manipulates Python floats (word coordinates, font sizes) with
small decimal constants (`1.6`, `0.08`, `0.15`, ...).  All concrete values
appearing in the program and in the inputs we reason about are exactly
representable, so floats are modelled as exact fractions `Frac` (an `Int`
numerator with a positive `Int` denominator).  All `Frac` operations are
plain integer arithmetic, so closed statements evaluate by `decide`.
-/

namespace PdfOutline

/-- Exact fraction with positive denominator: the model of a Python float. -/
structure Frac where
  num : Int
  den : Int
  pos : 0 < den

instance : DecidableEq Frac := fun a b =>
  if h : a.num = b.num ∧ a.den = b.den then
    isTrue (by cases a; cases b; simp_all)
  else
    isFalse (by intro he; cases he; simp_all)

instance : Inhabited Frac := ⟨⟨0, 1, by decide⟩⟩

/-- Numeric value order: `a < b` as values (cross multiplication). -/
def Frac.lt (a b : Frac) : Prop := a.num * b.den < b.num * a.den

/-- Numeric value order: `a ≤ b` as values (cross multiplication). -/
def Frac.le (a b : Frac) : Prop := a.num * b.den ≤ b.num * a.den

instance (a b : Frac) : Decidable (a.lt b) :=
  inferInstanceAs (Decidable (a.num * b.den < b.num * a.den))

instance (a b : Frac) : Decidable (a.le b) :=
  inferInstanceAs (Decidable (a.num * b.den ≤ b.num * a.den))

/-- Python float `==` is value equality, not representation equality. -/
def Frac.veq (a b : Frac) : Bool := a.num * b.den == b.num * a.den

def Frac.add (a b : Frac) : Frac :=
  ⟨a.num * b.den + b.num * a.den, a.den * b.den, mul_pos a.pos b.pos⟩

def Frac.neg (a : Frac) : Frac := ⟨-a.num, a.den, a.pos⟩

def Frac.sub (a b : Frac) : Frac := a.add b.neg

def Frac.mul (a b : Frac) : Frac :=
  ⟨a.num * b.num, a.den * b.den, mul_pos a.pos b.pos⟩

/-- Absolute value (denominator is positive, so only the numerator flips). -/
def Frac.habs (a : Frac) : Frac := ⟨|a.num|, a.den, a.pos⟩

/-- Reciprocal.  The zero case is unreachable in the program paths we model
(Python would raise `ZeroDivisionError`); it returns a junk value. -/
def Frac.inv (a : Frac) : Frac :=
  if h : 0 < a.num then ⟨a.den, a.num, h⟩
  else if h2 : a.num < 0 then ⟨-a.den, -a.num, by omega⟩
  else ⟨0, 1, by decide⟩

def Frac.div (a b : Frac) : Frac := a.mul b.inv

def Frac.ofInt (n : Int) : Frac := ⟨n, 1, by decide⟩

def Frac.bmin (a b : Frac) : Frac := if a.le b then a else b

def Frac.bmax (a b : Frac) : Frac := if a.le b then b else a

/-! ### Python string helpers

`str.strip`, `str.split`, `str.isdigit`, `str.isupper`, `str.lower`,
substring membership, and the two regular expressions used by the source
(`^\d+(\.\d+)*\s+` and `\.{4,}\s*\d+\s*$`), modelled over `List Char`.
The whitespace class is Python's ASCII whitespace. -/

def pyIsWsChar (c : Char) : Bool :=
  c == ' ' || c == '\t' || c == '\n' || c == '\r' || c == '\x0b' || c == '\x0c'

def pyStripL (l : List Char) : List Char :=
  ((l.dropWhile pyIsWsChar).reverse.dropWhile pyIsWsChar).reverse

/-- Python `str.strip()`. -/
def pyStrip (s : String) : String := ⟨pyStripL s.data⟩

/-- Helper for `len(s.split())`: counts maximal non-whitespace runs; the
flag records whether the previous character was inside a word. -/
def pyWordCountAux : Bool → List Char → Nat
  | _, [] => 0
  | inw, c :: rest =>
    if pyIsWsChar c then pyWordCountAux false rest
    else (if inw then 0 else 1) + pyWordCountAux true rest

/-- Python `len(s.split())`. -/
def pyWordCount (s : String) : Nat := pyWordCountAux false s.data

/-- Python `str.isdigit()` (restricted to ASCII digits). -/
def pyIsDigitStr (s : String) : Bool :=
  !s.data.isEmpty && s.data.all Char.isDigit

/-- Python `str.isupper()`: at least one cased character and no lowercase
cased character (restricted to ASCII letters). -/
def pyIsUpper (s : String) : Bool :=
  s.data.any (fun c => c.isAlpha) && s.data.all (fun c => !c.isLower)

/-- Python `str.lower()` (restricted to ASCII letters). -/
def lowerStr (s : String) : String := ⟨s.data.map Char.toLower⟩

def startsWithL : List Char → List Char → Bool
  | [], _ => true
  | _ :: _, [] => false
  | p :: ps, c :: cs => p == c && startsWithL ps cs

/-- Python `pat in s` on character lists. -/
def hasSubL (pat : List Char) : List Char → Bool
  | [] => pat.isEmpty
  | l@(_ :: t) => startsWithL pat l || hasSubL pat t

/-- States of the matcher for the tail of `^\d+(\.\d+)*\s+`:
`afterDot` expects at least one digit, `inDigits` is inside a digit run. -/
inductive NumSt
  | afterDot
  | inDigits

/-- Runs the tail of the regular expression `^\d+(\.\d+)*\s+` (everything
after the first digit).  The regex is deterministic here: backtracking can
never rescue a failed maximal munch. -/
def numTailRun : NumSt → List Char → Bool
  | _, [] => false
  | .afterDot, c :: rest => if c.isDigit then numTailRun .inDigits rest else false
  | .inDigits, c :: rest =>
    if c.isDigit then numTailRun .inDigits rest
    else if c == '.' then numTailRun .afterDot rest
    else pyIsWsChar c

/-- Python `re.match(r'^\d+(\.\d+)*\s+', s)` as a Boolean. -/
def startsWithNumOutline (s : String) : Bool :=
  match s.data with
  | [] => false
  | c :: rest => c.isDigit && numTailRun .inDigits rest

/-- Tail of the TOC regex after the digit run: `\d*\s*$`. -/
def afterDigits : List Char → Bool
  | [] => true
  | c :: rest => if c.isDigit then afterDigits rest else (c :: rest).all pyIsWsChar

/-- `\d+\s*$`: at least one digit, then only whitespace to the end. -/
def digitsThenWsEnd : List Char → Bool
  | [] => false
  | c :: rest => c.isDigit && afterDigits rest

/-- `\s*\d+\s*$`. -/
def wsThenNum : List Char → Bool
  | [] => false
  | c :: rest => if pyIsWsChar c then wsThenNum rest else digitsThenWsEnd (c :: rest)

/-- Consumes a run of dots (counting them); afterwards the match succeeds
iff at least 4 dots were seen and the remainder matches `\s*\d+\s*$`. -/
def dotsRun : Nat → List Char → Bool
  | _, [] => false
  | n, c :: rest =>
    if c == '.' then dotsRun (n + 1) rest
    else decide (4 ≤ n) && wsThenNum (c :: rest)

/-- Python `re.search(r'\.{4,}\s*\d+\s*$', s)` as a Boolean: tries the
dot-run matcher at every starting position. -/
def tocSearchL : List Char → Bool
  | [] => false
  | c :: rest => (c == '.' && dotsRun 1 rest) || tocSearchL rest

/-- `_is_toc_entry` from `hierarchy_builder.py`. -/
def is_toc_entry (s : String) : Bool := tocSearchL s.data

/-- Python `" ".join(...)`. -/
def joinSpace : List String → String
  | [] => ""
  | [s] => s
  | s :: rest => s ++ " " ++ joinSpace rest

/-- Python `s.replace("\n", " ")` (a single-character pattern, so a map). -/
def pyReplaceNl (s : String) : String :=
  ⟨s.data.map (fun c => if c == '\n' then ' ' else c)⟩


/-! ### Stable sorting

CPython's `sorted`/`list.sort` are stable ascending sorts.  A stable
ascending sort is uniquely determined by the (total, transitive) Boolean
`le`, so the insertion sort below produces exactly the same list as the
source's sort calls. -/

/-- Inserts `x` into `l`, after every element `y` with `le y x` (so equal
keys keep their original order: stability). -/
def insertStable (le : α → α → Bool) (x : α) : List α → List α
  | [] => [x]
  | y :: ys => if le y x then y :: insertStable le x ys else x :: y :: ys

/-- Stable ascending sort by `le`: the model of Python `sorted(l, key=...)`. -/
def pySortList (le : α → α → Bool) (l : List α) : List α :=
  l.foldl (fun acc x => insertStable le x acc) []

/-! ### The data model (input contract of the extraction layer) -/

/-- A word fragment from `page.extract_words`: text plus the dict entries
`x0`, `x1`, `top`, `bottom`, `fontname`, `size` used by the source. -/
structure Word where
  text : String
  x0 : Frac
  x1 : Frac
  top : Frac
  bottom : Frac
  fontname : String
  size : Frac
deriving DecidableEq

instance : Inhabited Word := ⟨⟨"", default, default, default, default, "", default⟩⟩

/-- A text block as produced by `_group_words_into_blocks`: the dict keys
`text`, `bbox` (flattened to `x0`, `top`, `x1`, `bottom`), `font_name`,
`font_size`, `page_num`. -/
structure Block where
  text : String
  x0 : Frac
  top : Frac
  x1 : Frac
  bottom : Frac
  font_name : String
  font_size : Frac
  page_num : Nat
deriving DecidableEq

/-- Sort key of `sorted(words, key=lambda w: (w['top'], w['x0']))`:
lexicographic value order on `(top, x0)`. -/
def wordLe (a b : Word) : Bool :=
  decide (a.top.lt b.top) || (Frac.veq a.top b.top && decide (a.x0.le b.x0))

/-- `sorted(current_line, key=lambda w: w['x0'])`. -/
def sortByX0 (l : List Word) : List Word :=
  pySortList (fun a b => decide (a.x0.le b.x0)) l

/-- Line-assembly loop of `_group_words_into_blocks` (lines 75-82).  The
current line accumulator is kept in reverse order, so its head is
`current_line[-1]`, the most recently appended word. -/
def buildLinesAux : List Word → List Word → List (List Word)
  | cur, [] => [sortByX0 cur.reverse]
  | cur, w :: ws =>
    if ((w.top.sub (cur.headD default).top).habs).lt (Frac.ofInt 2) then
      buildLinesAux (w :: cur) ws
    else
      sortByX0 cur.reverse :: buildLinesAux [w] ws

/-- Word-to-line grouping: sort by `(top, x0)`, then chunk with the `< 2`
tolerance against the last word of the current line. -/
def linesOf (words : List Word) : List (List Word) :=
  match pySortList wordLe words with
  | [] => []
  | w :: ws => buildLinesAux [w] ws

/-- `line[0]['top'] - prev_line[0]['top'] > prev_line[0]['size'] * 1.6`,
or the font name differs, or the font sizes differ by `≥ 1`
(`_group_words_into_blocks`, lines 91-96).  Lines are nonempty, so the
`headD` defaults are never used. -/
def isNewBlock (prev ln : List Word) : Bool :=
  let p := prev.headD default
  let c := ln.headD default
  decide ((p.size.mul ⟨8, 5, by decide⟩).lt (c.top.sub p.top)) ||
    !(c.fontname == p.fontname) ||
    !decide (((c.size.sub p.size).habs).lt (Frac.ofInt 1))

/-- Block-assembly loop of `_group_words_into_blocks` (lines 85-112).  The
current block's list of lines is kept in reverse order, so its head is
`current_block_lines[-1]`. -/
def blockPartitionAux : List (List Word) → List (List Word) → List (List (List Word))
  | curRev, [] => [curRev.reverse]
  | curRev, ln :: rest =>
    if isNewBlock (curRev.headD []) ln then
      curRev.reverse :: blockPartitionAux [ln] rest
    else
      blockPartitionAux (ln :: curRev) rest

/-- Partition of the line list into blocks (each block a list of lines). -/
def blockPartition : List (List Word) → List (List (List Word))
  | [] => []
  | ln :: rest => blockPartitionAux [ln] rest

/-- `" ".join(" ".join(w['text'] for w in ln) for ln in lines)`. -/
def lineText (ln : List Word) : String := joinSpace (ln.map (·.text))

def blockText (blines : List (List Word)) : String :=
  joinSpace (blines.map lineText)

/-- `_unify_bbox` from `pdf_processor.py`, applied to the word boxes of a
block: componentwise min/max; `(0,0,0,0)` for the empty list. -/
def unify_bbox (ws : List Word) : Frac × Frac × Frac × Frac :=
  match ws with
  | [] => (Frac.ofInt 0, Frac.ofInt 0, Frac.ofInt 0, Frac.ofInt 0)
  | w :: rest =>
    (rest.foldl (fun m v => m.bmin v.x0) w.x0,
     rest.foldl (fun m v => m.bmin v.top) w.top,
     rest.foldl (fun m v => m.bmax v.x1) w.x1,
     rest.foldl (fun m v => m.bmax v.bottom) w.bottom)

/-- Python `round(x, 2)` on an exactly represented value: round half to
even at two decimal places. -/
def round2 (a : Frac) : Frac :=
  let h := a.mul (Frac.ofInt 100)
  let f := h.num.fdiv h.den
  let r2 := 2 * (h.num - f * h.den)
  let n := if r2 < h.den then f else if h.den < r2 then f + 1
           else if f % 2 = 0 then f else f + 1
  ⟨n, 100, by decide⟩

/-- The block dict built at lines 99-109 / 115-125 of `pdf_processor.py`:
text, unified bbox, font name and size of the first word, page number. -/
def mkBlock (page_num : Nat) (blines : List (List Word)) : Block :=
  let allWords := blines.flatten
  let bb := unify_bbox allWords
  { text := blockText blines
    x0 := bb.1
    top := bb.2.1
    x1 := bb.2.2.1
    bottom := bb.2.2.2
    font_name := (allWords.headD default).fontname
    font_size := round2 (allWords.headD default).size
    page_num := page_num }

/-- `_group_words_into_blocks(words, page_num)`. -/
def group_words_into_blocks (words : List Word) (page_num : Nat) : List Block :=
  if words.isEmpty then []
  else (blockPartition (linesOf words)).map (mkBlock page_num)

/-! ### Generic adjacent / first-anchored chunking (for claim C1) -/

/-- Chunks a list, starting a new chunk when `p last y` fails with `last`
the most recently placed element; the current chunk is kept reversed. -/
def chunkAdjAux (p : α → α → Bool) : α → List α → List α → List (List α)
  | _, cur, [] => [cur.reverse]
  | last, cur, y :: ys =>
    if p last y then chunkAdjAux p y (y :: cur) ys
    else cur.reverse :: chunkAdjAux p y [y] ys

def chunkByAdj (p : α → α → Bool) : List α → List (List α)
  | [] => []
  | x :: xs => chunkAdjAux p x [x] xs

/-- Chunks a list, starting a new chunk when `p first y` fails with
`first` the first element of the current chunk. -/
def chunkFirstAux (p : α → α → Bool) : α → List α → List α → List (List α)
  | _, cur, [] => [cur.reverse]
  | first, cur, y :: ys =>
    if p first y then chunkFirstAux p first (y :: cur) ys
    else cur.reverse :: chunkFirstAux p y [y] ys

def chunkByFirst (p : α → α → Bool) : List α → List (List α)
  | [] => []
  | x :: xs => chunkFirstAux p x [x] xs

/-- The `< 2` same-line tolerance of `_group_words_into_blocks` line 77,
as a relation between the reference word `a` and the incoming word `b`. -/
def closeTops (a b : Word) : Bool :=
  decide (((b.top.sub a.top).habs).lt (Frac.ofInt 2))

/-- Line grouping as the claim C1 words it: a fragment starts a new line
exactly when its `top` differs from the current line's FIRST fragment's
`top` by at least 2 units. -/
def linesOfFirstRule (words : List Word) : List (List Word) :=
  (chunkByFirst closeTops (pySortList wordLe words)).map sortByX0

/-! ### `hierarchy_builder.py` -/

/-- The feature dict of `_get_block_features`. -/
structure Features where
  text : String
  font_size : Frac
  is_bold : Bool
  is_all_caps : Bool
  starts_with_number : Bool
  is_centered : Bool
  word_count : Nat
  is_toc : Bool
  original_block : Block
deriving DecidableEq

/-- `_is_header_or_footer`: top 8% / bottom 8% of the page height. -/
def is_header_or_footer (b : Block) (page_height : Frac) : Bool :=
  decide (b.top.lt (page_height.mul ⟨8, 100, by decide⟩)) ||
    decide ((page_height.mul ⟨92, 100, by decide⟩).lt b.top)

/-- `_get_block_features(block, page_width)`. -/
def get_block_features (b : Block) (page_width : Frac) : Features :=
  let text := pyStrip b.text
  let word_count := pyWordCount text
  { text := text
    font_size := b.font_size
    is_bold := hasSubL "bold".data (lowerStr b.font_name).data ||
      hasSubL "black".data (lowerStr b.font_name).data
    is_all_caps := pyIsUpper text && decide (0 < word_count)
    starts_with_number := startsWithNumOutline text
    is_centered :=
      decide ((((b.x0.add b.x1).div (Frac.ofInt 2)).sub
        (page_width.div (Frac.ofInt 2))).habs.lt (page_width.mul ⟨15, 100, by decide⟩))
    word_count := word_count
    is_toc := is_toc_entry text
    original_block := b }

/-- `_is_potential_heading(features)`: the disqualifiers followed by the
four heading signals, in source order. -/
def is_potential_heading (f : Features) : Bool :=
  if f.text = "" ∨ 20 < f.word_count ∨ f.is_toc = true ∨ pyIsDigitStr f.text = true then
    false
  else if (Frac.ofInt 14).lt f.font_size ∧ f.word_count < 15 then true
  else if f.starts_with_number = true ∧ f.word_count < 15 then true
  else if f.is_bold = true ∧ f.word_count < 15 then true
  else if f.is_all_caps = true ∧ (Frac.ofInt 11).lt f.font_size ∧ f.word_count < 15 then true
  else false

/-- `first_page_blocks` of `_extract_title`: blocks on page 1 with
non-empty stripped text. -/
def firstPageBlocks (blocks : List Block) : List Block :=
  blocks.filter (fun b => b.page_num == 1 && !(pyStrip b.text == ""))

/-- Score of a title candidate: font size, `*1.5` if centered, `*1.2` if
bold (`_extract_title`, lines 79-83). -/
def titleScore (f : Features) : Frac :=
  let s1 := f.font_size
  let s2 := if f.is_centered then s1.mul ⟨3, 2, by decide⟩ else s1
  if f.is_bold then s2.mul ⟨6, 5, by decide⟩ else s2

/-- The `(score, text)` candidate list of `_extract_title`: skip blocks
with top beyond 400, empty feature text, or more than 25 words. -/
def titleCandidates (fpb : List Block) (page_width : Frac) : List (Frac × String) :=
  fpb.filterMap (fun b =>
    if (Frac.ofInt 400).lt b.top then none
    else
      let f := get_block_features b page_width
      if f.text = "" ∨ 25 < f.word_count then none
      else some (titleScore f, f.text))

/-- One step of CPython `max(..., key=...)`: the current best `b` is
replaced by `a` only when `a`'s key is strictly larger. -/
def pickMax (b a : Frac × String) : Frac × String := if b.1.lt a.1 then a else b

/-- CPython `max(candidates, key=lambda item: item[0])`: scans left to
right and replaces the current best only on a strictly larger key, so the
first maximum wins. -/
def pyMaxFst : List (Frac × String) → Option (Frac × String)
  | [] => none
  | c :: cs => some (cs.foldl pickMax c)

/-- `_extract_title(text_blocks, page_width)`. -/
def extract_title (blocks : List Block) (page_width : Frac) : String :=
  if (firstPageBlocks blocks).isEmpty then "Untitled Document"
  else
    match pyMaxFst (titleCandidates (firstPageBlocks blocks) page_width) with
    | some c => c.2
    | none => "Untitled Document"

/-- The running maximum of the candidate keys (spec side of claim C8). -/
def maxVal (m : Frac) (cs : List (Frac × String)) : Frac :=
  cs.foldl (fun acc x => acc.bmax x.1) m

/-- Claim C8's words for the title choice: among the candidates, the first
one whose score equals the maximum score. -/
def titleSpecPick : List (Frac × String) → Option String
  | [] => none
  | c :: cs => ((c :: cs).find? (fun x => Frac.veq x.1 (maxVal c.1 cs))).map (·.2)

/-- An outline entry while it still carries the sort key: the dicts built
at lines 96 and 117-122.  The single-candidate branch (line 96) builds its
dict without a `y_pos` key, modelled as `none`. -/
structure LEntry where
  level : String
  text : String
  page : Nat
  y_pos : Option Frac
deriving DecidableEq

/-- An entry of the returned outline (after `del item['y_pos']`). -/
structure OEntry where
  level : String
  text : String
  page : Nat
deriving DecidableEq

structure OutlineResult where
  title : String
  outline : List OEntry
deriving DecidableEq

instance {ε α : Type} [DecidableEq ε] [DecidableEq α] : DecidableEq (Except ε α) := fun a b =>
  match a, b with
  | .ok x, .ok y =>
    if h : x = y then isTrue (by rw [h]) else isFalse (by intro he; cases he; exact h rfl)
  | .error x, .error y =>
    if h : x = y then isTrue (by rw [h]) else isFalse (by intro he; cases he; exact h rfl)
  | .ok _, .error _ => isFalse (by intro he; cases he)
  | .error _, .ok _ => isFalse (by intro he; cases he)

/-- `np.unique`: the distinct values, sorted ascending. -/
def uniqueSizes (l : List Frac) : List Frac :=
  (pySortList (fun a b => decide (a.le b)) l).dedup

/-- Splits `l` into chunks of the given sizes. -/
def takeSizes : List Nat → List Frac → List (List Frac)
  | [], _ => []
  | s :: ss, l => l.take s :: takeSizes ss (l.drop s)

/-- Splits `l` into `k` contiguous chunks of near-equal length. -/
def splitChunks (l : List Frac) (k : Nat) : List (List Frac) :=
  takeSizes ((List.range k).map
    (fun i => if i < l.length % k then l.length / k + 1 else l.length / k)) l

def meanFrac (l : List Frac) : Frac :=
  (l.foldl Frac.add (Frac.ofInt 0)).div (Frac.ofInt l.length)

/-- Modelled from the spec: the source calls `sklearn.cluster.KMeans`
(`random_state=42`), which is external to this repository.  The spec
abstracts it as `LevelAssigner.assign`: any deterministic 1-dimensional
clustering with `k` centers where the cluster-center order determines the
level.  We model it as the spec's quantile binning: the distinct sizes,
sorted ascending, are split into `k` contiguous chunks; a cluster's center
is the chunk mean, and a point's label is the index of the chunk holding
its value.  When `k` equals the number of distinct sizes (every case the
claims evaluate concretely), each distinct size is its own center, which
agrees with converged k-means. -/
def kmeans1D (points : List Frac) (k : Nat) : List Nat × List Frac :=
  let uniq := uniqueSizes points
  let chunks := splitChunks uniq k
  let centers := chunks.map meanFrac
  let labels := points.map (fun p => chunks.findIdx (fun c => c.contains p))
  (labels, centers)

/-- Python dict lookup for `{center: level}` built in iteration order with
overwrite on duplicate keys (so the last binding wins); float keys compare
by value. -/
def dictGet (l : List (Frac × String)) (key : Frac) (dflt : String) : String :=
  match l.reverse.find? (fun p => Frac.veq p.1 key) with
  | some p => p.2
  | none => dflt

/-- `font_sizes` of `_assign_heading_levels`. -/
def fontSizesOf (cands : List Features) : List Frac := cands.map (·.font_size)

/-- `n_clusters = min(len(unique_sizes), 3)`. -/
def nClustersOf (cands : List Features) : Nat :=
  min (uniqueSizes (fontSizesOf cands)).length 3

/-- `kmeans.labels_`. -/
def labelsOf (cands : List Features) : List Nat :=
  (kmeans1D (fontSizesOf cands) (nClustersOf cands)).1

/-- `kmeans.cluster_centers_` (flattened). -/
def centersOf (cands : List Features) : List Frac :=
  (kmeans1D (fontSizesOf cands) (nClustersOf cands)).2

/-- `sorted(kmeans.cluster_centers_.flatten(), reverse=True)`: a stable
descending sort. -/
def sortedCentersOf (cands : List Features) : List Frac :=
  pySortList (fun a b => decide (b.le a)) (centersOf cands)

/-- `size_to_level = {center: f"H{i+1}" for i, center in enumerate(...)}`,
as an association list in insertion order. -/
def sizeToLevelOf (cands : List Features) : List (Frac × String) :=
  ((List.range (sortedCentersOf cands).length).zip (sortedCentersOf cands)).map
    (fun ic => (ic.2, "H" ++ toString (ic.1 + 1)))

/-- The outline dict built for candidate `fl.1` with cluster label `fl.2`
(lines 111-122): looks up its cluster's center in `size_to_level`, with
the `H{n_clusters}` default. -/
def entryOf (cands : List Features) (fl : Features × Nat) : LEntry :=
  { level := dictGet (sizeToLevelOf cands) ((centersOf cands).getD fl.2 default)
      ("H" ++ toString (nClustersOf cands)),
    text := fl.1.text, page := fl.1.original_block.page_num,
    y_pos := some fl.1.original_block.top }

/-- `_assign_heading_levels(heading_candidates)`.  The source computes the
fitted model once into locals; here each local is a named definition of the
same value. -/
def assign_heading_levels (cands : List Features) : List LEntry :=
  match cands with
  | [] => []
  | [f] => [{ level := "H1", text := f.text, page := f.original_block.page_num, y_pos := none }]
  | cands@(_ :: _ :: _) =>
    if nClustersOf cands = 0 then []
    else (cands.zip (labelsOf cands)).map (entryOf cands)

/-- A processed page as produced by `process_pdf`. -/
structure Page where
  page_num : Nat
  width : Frac
  height : Frac
  text_blocks : List Block
deriving DecidableEq

def heightOf : List Page → Frac
  | [] => Frac.ofInt 842
  | p :: _ => p.height

def widthOf : List Page → Frac
  | [] => Frac.ofInt 595
  | p :: _ => p.width

/-- `core_content_blocks`: all blocks with headers/footers filtered out
against the first page's height. -/
def coreBlocksOf (pages : List Page) : List Block :=
  ((pages.map (·.text_blocks)).flatten).filter
    (fun b => !is_header_or_footer b (heightOf pages))

/-- The title value `build` computes before newline normalisation. -/
def rawTitleOf (pages : List Page) : String :=
  extract_title (coreBlocksOf pages) (widthOf pages)

/-- The heading-candidate features of `build` (lines 140-143): potential
headings whose text is not the (raw) title. -/
def headingCandidatesOf (pages : List Page) : List Features :=
  (((coreBlocksOf pages).map (fun b => get_block_features b (widthOf pages))).filter
    is_potential_heading).filter (fun f => !(f.text == rawTitleOf pages))

/-- `outline.sort(key=lambda x: (x['page'], x['y_pos']))`: lexicographic
tuple order; `y_pos` read with a default that is never used, because the
sort is only reached when every entry carries `y_pos`. -/
def outlineLe (a b : LEntry) : Bool :=
  decide (a.page < b.page) ||
    (a.page == b.page && decide ((a.y_pos.getD default).le (b.y_pos.getD default)))

def stripY (e : LEntry) : OEntry := ⟨e.level, e.text, e.page⟩

/-- `build(processed_pages)`.  CPython computes the sort key of every
element before comparing (and the cleanup loop runs `del item['y_pos']`),
so an entry without `y_pos` — exactly the single-candidate branch of
`_assign_heading_levels` — raises `KeyError`, modelled as `Except.error`. -/
def build (pages : List Page) : Except String OutlineResult :=
  match pages with
  | [] => .ok { title := "No Content Found", outline := [] }
  | _ :: _ =>
    if (assign_heading_levels (headingCandidatesOf pages)).all (fun e => e.y_pos.isSome) then
      .ok { title := pyStrip (pyReplaceNl (rawTitleOf pages)),
            outline := (pySortList outlineLe
              (assign_heading_levels (headingCandidatesOf pages))).map stripY }
    else
      .error "KeyError: y_pos"

/-! ### Concrete inputs used to evaluate the claims -/

/-- A word with integer coordinates (x1 and bottom offset for a box). -/
def mkIntWord (t : String) (tp x0 : Int) (fn : String) (sz : Int) : Word :=
  { text := t, x0 := Frac.ofInt x0, x1 := Frac.ofInt (x0 + 10),
    top := Frac.ofInt tp, bottom := Frac.ofInt (tp + 8), fontname := fn,
    size := Frac.ofInt sz }

/-- A page-1 block at the left margin with integer coordinates. -/
def mkIntBlock (t : String) (tp : Int) (fn : String) (sz : Int) : Block :=
  { text := t, x0 := Frac.ofInt 0, top := Frac.ofInt tp, x1 := Frac.ofInt 50,
    bottom := Frac.ofInt (tp + 10), font_name := fn, font_size := Frac.ofInt sz,
    page_num := 1 }

/-- Claim C1: first of three words whose tops drift by 1.5 units each. -/
def driftW1 : Word := mkIntWord "a" 0 0 "F" 10

/-- Claim C1: second drift word, top 1.5. -/
def driftW2 : Word :=
  { text := "b", x0 := Frac.ofInt 0, x1 := Frac.ofInt 10, top := ⟨3, 2, by decide⟩,
    bottom := Frac.ofInt 8, fontname := "F", size := Frac.ofInt 10 }

/-- Claim C1: third drift word, top 3 (3 units from the first word). -/
def driftW3 : Word := mkIntWord "c" 3 0 "F" 10

/-- Claim C9: a word "the" at the top of the page. -/
def theW1 : Word := mkIntWord "the" 0 0 "F" 10

/-- Claim C9: another word "the" 100 units lower (a separate block). -/
def theW2 : Word := mkIntWord "the" 100 0 "F" 10

/-- Claim C2: a block whose numeric prefix has a trailing dot before the
space and which triggers no other heading signal. -/
def c2BadBlock : Block := mkIntBlock "1. Introduction" 450 "Regular" 10

/-- Claim C2 witness: the same block shape with a prefix the regex accepts. -/
def c2GoodBlock : Block := mkIntBlock "1.2 Background" 450 "Regular" 10

/-- Claim C3 scenario: three bold heading blocks sized 18 / 14 / 10 below
the 400-unit title zone (so the title is "Untitled Document"). -/
def c3pages : List Page :=
  [{ page_num := 1, width := Frac.ofInt 595, height := Frac.ofInt 842,
     text_blocks := [mkIntBlock "Heading A" 450 "TimesBold" 18,
                     mkIntBlock "Heading B" 500 "TimesBold" 14,
                     mkIntBlock "Heading C" 550 "TimesBold" 10] }]

/-- The result `build` returns on `c3pages`. -/
def c3result : OutlineResult :=
  { title := "Untitled Document",
    outline := [⟨"H1", "Heading A", 1⟩, ⟨"H2", "Heading B", 1⟩, ⟨"H3", "Heading C", 1⟩] }

/-- A features record whose singleton list exercises the one-candidate
branch of level assignment. -/
def c3SingleFeature : Features :=
  get_block_features (mkIntBlock "x" 450 "Regular" 10) (Frac.ofInt 595)

/-- Claim C7 failing input: exactly one heading candidate ("HELLO WORLD",
font size 20, below the title zone). -/
def c7pages : List Page :=
  [{ page_num := 1, width := Frac.ofInt 595, height := Frac.ofInt 842,
     text_blocks := [mkIntBlock "HELLO WORLD" 450 "Regular" 20] }]

/-- Claim C6 counterexample input: the winning title block's text contains
a newline; another block carries the newline-normalised text. -/
def c6pages : List Page :=
  [{ page_num := 1, width := Frac.ofInt 595, height := Frac.ofInt 842,
     text_blocks := [mkIntBlock "Big\nTitle" 100 "F" 20,
                     mkIntBlock "Big Title" 200 "F" 16,
                     mkIntBlock "Other Heading" 300 "F" 16] }]

/-- The result `build` returns on `c6pages`. -/
def c6result : OutlineResult :=
  { title := "Big Title",
    outline := [⟨"H1", "Big Title", 1⟩, ⟨"H1", "Other Heading", 1⟩] }

/-! ### Lemmas about the stable sort -/

theorem perm_insertStable (le : α → α → Bool) (x : α) (l : List α) :
    (insertStable le x l).Perm (x :: l) := by
  induction l with
  | nil => simp [insertStable]
  | cons y ys ih =>
    unfold insertStable
    split
    · exact (ih.cons y).trans (List.Perm.swap x y ys)
    · exact List.Perm.refl _

theorem perm_pySortList_aux (le : α → α → Bool) (l acc : List α) :
    (l.foldl (fun acc x => insertStable le x acc) acc).Perm (acc ++ l) := by
  induction l generalizing acc with
  | nil => simp
  | cons x t ih =>
    have h1 : (t.foldl (fun acc x => insertStable le x acc) (insertStable le x acc)).Perm
        (insertStable le x acc ++ t) := ih (insertStable le x acc)
    have h2 : (insertStable le x acc ++ t).Perm ((x :: acc) ++ t) :=
      (perm_insertStable le x acc).append_right t
    have h3 : ((x :: acc) ++ t).Perm (acc ++ x :: t) := List.perm_middle.symm
    exact (h1.trans h2).trans h3

theorem perm_pySortList (le : α → α → Bool) (l : List α) : (pySortList le l).Perm l :=
  (perm_pySortList_aux le l []).trans (by simp)

theorem mem_insertStable {le : α → α → Bool} {x z : α} {l : List α}
    (h : z ∈ insertStable le x l) : z = x ∨ z ∈ l := by
  have := (perm_insertStable le x l).mem_iff.mp h
  simpa using this

theorem pairwise_insertStable {le : α → α → Bool}
    (htot : ∀ a b, le a b = true ∨ le b a = true)
    (htr : ∀ a b c, le a b = true → le b c = true → le a c = true)
    (x : α) {l : List α} (h : List.Pairwise (fun a b => le a b = true) l) :
    List.Pairwise (fun a b => le a b = true) (insertStable le x l) := by
  induction l with
  | nil => simp [insertStable]
  | cons y ys ih =>
    rcases List.pairwise_cons.mp h with ⟨hy, hys⟩
    unfold insertStable
    split
    case isTrue hyx =>
      refine List.pairwise_cons.mpr ⟨?_, ih hys⟩
      intro z hz
      rcases mem_insertStable hz with rfl | hz'
      · exact hyx
      · exact hy z hz'
    case isFalse hyx =>
      have hxy : le x y = true := (htot x y).resolve_right hyx
      refine List.pairwise_cons.mpr ⟨?_, h⟩
      intro z hz
      rcases List.mem_cons.mp hz with rfl | hz'
      · exact hxy
      · exact htr x y z hxy (hy z hz')

theorem sorted_pySortList {le : α → α → Bool}
    (htot : ∀ a b, le a b = true ∨ le b a = true)
    (htr : ∀ a b c, le a b = true → le b c = true → le a c = true)
    (l : List α) :
    List.Pairwise (fun a b => le a b = true) (pySortList le l) := by
  suffices h : ∀ (t acc : List α), List.Pairwise (fun a b => le a b = true) acc →
      List.Pairwise (fun a b => le a b = true)
        (t.foldl (fun acc x => insertStable le x acc) acc) by
    exact h l [] (by simp)
  intro t
  induction t with
  | nil => intro acc hacc; simpa using hacc
  | cons x t ih =>
    intro acc hacc
    exact ih (insertStable le x acc) (pairwise_insertStable htot htr x hacc)

theorem buildLinesAux_eq_chunkAdj (rest : List Word) :
    ∀ cur : List Word, cur ≠ [] →
      buildLinesAux cur rest =
        (chunkAdjAux closeTops (cur.headD default) cur rest).map sortByX0 := by
  induction rest with
  | nil => intro cur _; simp [buildLinesAux, chunkAdjAux]
  | cons w ws ih =>
    intro cur hcur
    by_cases hc : ((w.top.sub (cur.headD default).top).habs).lt (Frac.ofInt 2)
    · have hb : closeTops (cur.headD default) w = true := decide_eq_true hc
      have := ih (w :: cur) (by simp)
      simp only [buildLinesAux, chunkAdjAux, hc, if_pos, hb, if_true]
      simpa using this
    · have hb : closeTops (cur.headD default) w = false := decide_eq_false hc
      have := ih [w] (by simp)
      simp only [buildLinesAux, chunkAdjAux, hc, if_neg, hb, Bool.false_eq_true,
        List.map_cons]
      simpa using this


/-! ### Lemmas for the grouping invariants (claim C9) -/

theorem perm_sortByX0 (l : List Word) : (sortByX0 l).Perm l := by
  unfold sortByX0
  exact perm_pySortList _ _

theorem flatten_buildLinesAux (rest : List Word) :
    ∀ cur : List Word, ((buildLinesAux cur rest).flatten).Perm (cur.reverse ++ rest) := by
  induction rest with
  | nil =>
    intro cur
    simpa [buildLinesAux] using perm_sortByX0 cur.reverse
  | cons w ws ih =>
    intro cur
    unfold buildLinesAux
    split
    · have h := ih (w :: cur)
      simpa using h
    · have h2 : ((buildLinesAux [w] ws).flatten).Perm (w :: ws) := by
        simpa using ih [w]
      simp only [List.flatten_cons]
      exact ((perm_sortByX0 cur.reverse).append h2).trans (List.Perm.refl _)

theorem perm_flatten_linesOf (words : List Word) :
    ((linesOf words).flatten).Perm words := by
  unfold linesOf
  have hp := perm_pySortList wordLe words
  rcases hs : pySortList wordLe words with _ | ⟨w, ws⟩
  · rw [hs] at hp
    simpa using hp.symm
  · rw [hs] at hp
    have h := flatten_buildLinesAux ws [w]
    exact (h.trans (by simp)).trans hp

theorem flatten_blockPartitionAux (rest : List (List Word)) :
    ∀ curRev : List (List Word),
      (blockPartitionAux curRev rest).flatten = curRev.reverse ++ rest := by
  induction rest with
  | nil => intro curRev; simp [blockPartitionAux]
  | cons ln rest ih =>
    intro curRev
    unfold blockPartitionAux
    split
    · simp [ih [ln]]
    · simpa using ih (ln :: curRev)

theorem flatten_blockPartition (lines : List (List Word)) :
    (blockPartition lines).flatten = lines := by
  cases lines with
  | nil => rfl
  | cons ln rest => simpa using flatten_blockPartitionAux rest [ln]

theorem buildLinesAux_ne_nil (rest : List Word) :
    ∀ cur : List Word, buildLinesAux cur rest ≠ [] := by
  induction rest with
  | nil => intro cur; simp [buildLinesAux]
  | cons w ws ih =>
    intro cur
    unfold buildLinesAux
    split
    · exact ih (w :: cur)
    · simp

theorem blockPartitionAux_ne_nil (rest : List (List Word)) :
    ∀ curRev : List (List Word), blockPartitionAux curRev rest ≠ [] := by
  induction rest with
  | nil => intro curRev; simp [blockPartitionAux]
  | cons ln rest ih =>
    intro curRev
    unfold blockPartitionAux
    split
    · simp
    · exact ih (ln :: curRev)

theorem joinSpace_occurs {s : String} : ∀ {l : List String}, s ∈ l →
    ∃ p q : List Char, (joinSpace l).data = p ++ s.data ++ q := by
  intro l
  induction l with
  | nil => intro h; cases h
  | cons a t ih =>
    intro h
    cases t with
    | nil =>
      have hs : s = a := by simpa using h
      exact ⟨[], [], by simp [joinSpace, hs]⟩
    | cons b t2 =>
      have hj : joinSpace (a :: b :: t2) = a ++ " " ++ joinSpace (b :: t2) := rfl
      rcases List.mem_cons.mp h with rfl | hm
      · refine ⟨[], (" " ++ joinSpace (b :: t2)).data, ?_⟩
        simp [hj, String.data_append]
      · rcases ih hm with ⟨p, q, hpq⟩
        refine ⟨(a ++ " ").data ++ p, q, ?_⟩
        simp [hj, String.data_append, hpq]

theorem word_text_occurs {w : Word} {bl : List (List Word)}
    (h : w ∈ bl.flatten) (pn : Nat) :
    ∃ p q : List Char, ((mkBlock pn bl).text).data = p ++ w.text.data ++ q := by
  rcases List.mem_flatten.mp h with ⟨ln, hln, hwln⟩
  have h1 : w.text ∈ ln.map (·.text) := List.mem_map.mpr ⟨w, hwln, rfl⟩
  rcases joinSpace_occurs h1 with ⟨p1, q1, hpq1⟩
  have h2 : lineText ln ∈ bl.map lineText := List.mem_map.mpr ⟨ln, hln, rfl⟩
  rcases joinSpace_occurs h2 with ⟨p2, q2, hpq2⟩
  refine ⟨p2 ++ p1, q1 ++ q2, ?_⟩
  have : (mkBlock pn bl).text = blockText bl := rfl
  have hpq1a : (lineText ln).data = p1 ++ w.text.data ++ q1 := hpq1
  rw [this]
  unfold blockText
  rw [hpq2, hpq1a]
  simp

/-! ### Value-order toolkit for `Frac` -/

theorem Frac.le_total (a b : Frac) : a.le b ∨ b.le a := by
  unfold Frac.le
  omega

theorem Frac.le_trans {a b c : Frac} (h1 : a.le b) (h2 : b.le c) : a.le c := by
  unfold Frac.le at *
  have hc : (0 : Int) ≤ c.den := c.pos.le
  have ha : (0 : Int) ≤ a.den := a.pos.le
  have k1 : a.num * b.den * c.den ≤ b.num * a.den * c.den :=
    mul_le_mul_of_nonneg_right h1 hc
  have k2 : b.num * c.den * a.den ≤ c.num * b.den * a.den :=
    mul_le_mul_of_nonneg_right h2 ha
  have key : a.num * c.den * b.den ≤ c.num * a.den * b.den := by nlinarith
  exact le_of_mul_le_mul_right key b.pos

theorem Frac.le_of_not_le {a b : Frac} (h : ¬ a.le b) : b.le a := by
  unfold Frac.le at *
  omega

theorem Frac.le_refl (a : Frac) : a.le a := by
  unfold Frac.le
  omega

theorem Frac.veq_refl (a : Frac) : Frac.veq a a = true := by
  simp [Frac.veq]

theorem Frac.veq_iff_le_le {a b : Frac} : Frac.veq a b = true ↔ (a.le b ∧ b.le a) := by
  simp only [Frac.veq, Frac.le, beq_iff_eq]
  omega

theorem Frac.le_of_lt {a b : Frac} (h : a.lt b) : a.le b := by
  unfold Frac.lt at h
  unfold Frac.le
  omega

theorem Frac.le_of_not_lt {a b : Frac} (h : ¬ a.lt b) : b.le a := by
  unfold Frac.lt at h
  unfold Frac.le
  omega

theorem Frac.not_le_of_lt {a b : Frac} (h : a.lt b) : ¬ b.le a := by
  unfold Frac.lt at h
  unfold Frac.le
  omega

theorem Frac.not_veq_of_lt {a b : Frac} (h : a.lt b) : Frac.veq a b = false := by
  unfold Frac.lt at h
  simp only [Frac.veq, beq_eq_false_iff_ne, ne_eq]
  omega

theorem Frac.lt_of_lt_of_le {a b c : Frac} (h1 : a.lt b) (h2 : b.le c) : a.lt c := by
  by_contra hc
  exact Frac.not_le_of_lt h1 (Frac.le_trans h2 (Frac.le_of_not_lt hc))

theorem Frac.veq_congr {m n : Frac} (h : Frac.veq m n = true) (x : Frac) :
    Frac.veq x m = Frac.veq x n := by
  rcases Frac.veq_iff_le_le.mp h with ⟨h1, h2⟩
  by_cases hx : Frac.veq x m = true
  · rcases Frac.veq_iff_le_le.mp hx with ⟨h3, h4⟩
    have hy : Frac.veq x n = true :=
      Frac.veq_iff_le_le.mpr ⟨Frac.le_trans h3 h1, Frac.le_trans h2 h4⟩
    rw [hx, hy]
  · by_cases hy : Frac.veq x n = true
    · rcases Frac.veq_iff_le_le.mp hy with ⟨h3, h4⟩
      exact absurd (Frac.veq_iff_le_le.mpr ⟨Frac.le_trans h3 h2, Frac.le_trans h1 h4⟩) hx
    · rw [eq_false_of_ne_true hx, eq_false_of_ne_true hy]

/-! ### The first-maximum characterisation of `pyMaxFst` (claim C8) -/

theorem foldl_pickMax_le (cs : List (Frac × String)) :
    ∀ c x, x ∈ c :: cs → x.1.le (cs.foldl pickMax c).1 := by
  induction cs with
  | nil =>
    intro c x hx
    have hxc : x = c := by simpa using hx
    subst hxc
    exact Frac.le_refl _
  | cons a t ih =>
    intro c x hx
    have hstep : (a :: t).foldl pickMax c = t.foldl pickMax (pickMax c a) := rfl
    rw [hstep]
    have hc : c.1.le (pickMax c a).1 := by
      unfold pickMax
      split
      case isTrue hlt => exact Frac.le_of_lt hlt
      case isFalse hlt => exact Frac.le_refl _
    have ha : a.1.le (pickMax c a).1 := by
      unfold pickMax
      split
      case isTrue hlt => exact Frac.le_refl _
      case isFalse hlt => exact Frac.le_of_not_lt hlt
    have hhead : (pickMax c a).1.le (t.foldl pickMax (pickMax c a)).1 :=
      ih (pickMax c a) (pickMax c a) (by simp)
    rcases List.mem_cons.mp hx with rfl | hx2
    · exact Frac.le_trans hc hhead
    · rcases List.mem_cons.mp hx2 with rfl | hx3
      · exact Frac.le_trans ha hhead
      · exact ih (pickMax c a) x (List.mem_cons_of_mem _ hx3)

theorem find?_foldl_pickMax (cs : List (Frac × String)) :
    ∀ c, (c :: cs).find? (fun x => Frac.veq x.1 (cs.foldl pickMax c).1) =
      some (cs.foldl pickMax c) := by
  induction cs with
  | nil =>
    intro c
    simp [List.find?, Frac.veq_refl]
  | cons a t ih =>
    intro c
    have hstep : (a :: t).foldl pickMax c = t.foldl pickMax (pickMax c a) := rfl
    rw [hstep]
    by_cases hlt : c.1.lt a.1
    · have hpa : pickMax c a = a := by simp [pickMax, hlt]
      rw [hpa]
      have hcr : c.1.lt (t.foldl pickMax a).1 :=
        Frac.lt_of_lt_of_le hlt (foldl_pickMax_le t a a (by simp))
      have hpc : Frac.veq c.1 (t.foldl pickMax a).1 = false := Frac.not_veq_of_lt hcr
      rw [List.find?_cons_of_neg _ (by simp [hpc])]
      exact ih a
    · have hpa : pickMax c a = c := by simp [pickMax, hlt]
      rw [hpa]
      have hac : a.1.le c.1 := Frac.le_of_not_lt hlt
      have iht := ih c
      by_cases hpc : Frac.veq c.1 (t.foldl pickMax c).1 = true
      · have hhead : (c :: t).find? (fun x => Frac.veq x.1 (t.foldl pickMax c).1) = some c :=
          List.find?_cons_of_pos _ (by simpa using hpc)
        have hc_eq : c = t.foldl pickMax c := by
          have := hhead.symm.trans iht
          simpa using this
        rw [List.find?_cons_of_pos _ (by simpa using hpc)]
        rw [← hc_eq]
      · have hpc' : Frac.veq c.1 (t.foldl pickMax c).1 = false := eq_false_of_ne_true hpc
        have hcler : c.1.le (t.foldl pickMax c).1 := foldl_pickMax_le t c c (by simp)
        have hpa2 : Frac.veq a.1 (t.foldl pickMax c).1 = false := by
          cases hv : Frac.veq a.1 (t.foldl pickMax c).1 with
          | false => rfl
          | true =>
            rcases Frac.veq_iff_le_le.mp hv with ⟨h5, h6⟩
            exact absurd (Frac.veq_iff_le_le.mpr ⟨hcler, Frac.le_trans h6 hac⟩) hpc
        have hq : t.find? (fun x => Frac.veq x.1 (t.foldl pickMax c).1) =
            some (t.foldl pickMax c) := by
          have := iht
          rw [List.find?_cons_of_neg _ (by simp [hpc'])] at this
          exact this
        rw [List.find?_cons_of_neg _ (by simp [hpc']),
          List.find?_cons_of_neg _ (by simp [hpa2])]
        exact hq

theorem maxVal_veq_foldl_pickMax (t : List (Frac × String)) :
    ∀ (m : Frac) (c : Frac × String), Frac.veq m c.1 = true →
      Frac.veq (maxVal m t) (t.foldl pickMax c).1 = true := by
  induction t with
  | nil =>
    intro m c h
    simpa [maxVal] using h
  | cons a t ih =>
    intro m c h
    have hm1 : maxVal m (a :: t) = maxVal (m.bmax a.1) t := rfl
    have hf1 : (a :: t).foldl pickMax c = t.foldl pickMax (pickMax c a) := rfl
    rw [hm1, hf1]
    apply ih
    rcases Frac.veq_iff_le_le.mp h with ⟨h1, h2⟩
    unfold Frac.bmax pickMax
    by_cases hmle : m.le a.1
    · rw [if_pos hmle]
      by_cases hlt : c.1.lt a.1
      · rw [if_pos hlt]
        exact Frac.veq_refl _
      · rw [if_neg hlt]
        exact Frac.veq_iff_le_le.mpr ⟨Frac.le_of_not_lt hlt, Frac.le_trans h2 hmle⟩
    · rw [if_neg hmle]
      by_cases hlt : c.1.lt a.1
      · have ham : a.1.le m := Frac.le_of_not_le hmle
        exact absurd (Frac.le_trans ham h1) (Frac.not_le_of_lt hlt)
      · rw [if_neg hlt]
        exact h

/-! ### Lemmas about level assignment and `build` -/

theorem takeSizes_length (ss : List Nat) : ∀ l : List Frac, (takeSizes ss l).length = ss.length := by
  induction ss with
  | nil => intro l; rfl
  | cons s ss ih => intro l; simp [takeSizes, ih]

theorem length_splitChunks (l : List Frac) (k : Nat) : (splitChunks l k).length = k := by
  unfold splitChunks
  rw [takeSizes_length]
  simp

theorem length_pySortList (le : α → α → Bool) (l : List α) :
    (pySortList le l).length = l.length :=
  (perm_pySortList le l).length_eq

theorem dictGet_cases (l : List (Frac × String)) (key : Frac) (dflt : String) :
    dictGet l key dflt = dflt ∨ ∃ p ∈ l, dictGet l key dflt = p.2 := by
  unfold dictGet
  rcases hf : l.reverse.find? (fun p => Frac.veq p.1 key) with _ | p
  · left; rw [hf]
  · right
    refine ⟨p, List.mem_reverse.mp (List.mem_of_find?_eq_some hf), ?_⟩
    rw [hf]

theorem hString_cases {m : Nat} (h1 : 1 ≤ m) (h2 : m ≤ 3) :
    "H" ++ toString m = "H1" ∨ "H" ++ toString m = "H2" ∨ "H" ++ toString m = "H3" := by
  interval_cases m
  · exact Or.inl (by decide)
  · exact Or.inr (Or.inl (by decide))
  · exact Or.inr (Or.inr (by decide))

/-- Every level the `size_to_level` dict (or its default) can produce for
at most 3 centers is one of `H1`, `H2`, `H3`. -/
theorem level_mem_of_stl {sortedCenters : List Frac} {key : Frac} {k : Nat}
    (hk1 : 1 ≤ k) (hk3 : k ≤ 3) (hlen : sortedCenters.length ≤ 3) :
    dictGet (((List.range sortedCenters.length).zip sortedCenters).map
        (fun ic => (ic.2, "H" ++ toString (ic.1 + 1)))) key ("H" ++ toString k) = "H1" ∨
      dictGet (((List.range sortedCenters.length).zip sortedCenters).map
        (fun ic => (ic.2, "H" ++ toString (ic.1 + 1)))) key ("H" ++ toString k) = "H2" ∨
      dictGet (((List.range sortedCenters.length).zip sortedCenters).map
        (fun ic => (ic.2, "H" ++ toString (ic.1 + 1)))) key ("H" ++ toString k) = "H3" := by
  rcases dictGet_cases (((List.range sortedCenters.length).zip sortedCenters).map
      (fun ic => (ic.2, "H" ++ toString (ic.1 + 1)))) key ("H" ++ toString k) with hD | ⟨p, hp, hD⟩
  · rw [hD]
    exact hString_cases hk1 hk3
  · rcases List.mem_map.mp hp with ⟨ic, hic, hpe⟩
    obtain ⟨hr, _⟩ := List.of_mem_zip hic
    have hi : ic.1 < sortedCenters.length := List.mem_range.mp hr
    rw [hD, ← hpe]
    exact hString_cases (by omega) (by omega)

theorem entry_level_mem (cands : List Features) (fl : Features × Nat)
    (hn : ¬ nClustersOf cands = 0) :
    (entryOf cands fl).level = "H1" ∨ (entryOf cands fl).level = "H2" ∨
      (entryOf cands fl).level = "H3" := by
  have hk1 : 1 ≤ nClustersOf cands := by omega
  have hk3 : nClustersOf cands ≤ 3 := Nat.min_le_right _ _
  have hlen : (sortedCentersOf cands).length ≤ 3 := by
    unfold sortedCentersOf
    rw [length_pySortList]
    unfold centersOf kmeans1D
    simp only [List.length_map]
    rw [length_splitChunks]
    exact hk3
  simp only [entryOf]
  unfold sizeToLevelOf
  exact level_mem_of_stl hk1 hk3 hlen

theorem mem_assign_heading_levels {cands : List Features} {e : LEntry}
    (h : e ∈ assign_heading_levels cands) :
    ∃ f ∈ cands, e.text = f.text ∧ e.page = f.original_block.page_num ∧
      (e.level = "H1" ∨ e.level = "H2" ∨ e.level = "H3") ∧
      (e.y_pos = none ∨ e.y_pos = some f.original_block.top) := by
  match cands with
  | [] => simp [assign_heading_levels] at h
  | [f] =>
    have he : e = ⟨"H1", f.text, f.original_block.page_num, none⟩ := by
      simpa [assign_heading_levels] using h
    subst he
    exact ⟨f, by simp, rfl, rfl, Or.inl rfl, Or.inl rfl⟩
  | f1 :: f2 :: rest =>
    have hb : assign_heading_levels (f1 :: f2 :: rest) =
        if nClustersOf (f1 :: f2 :: rest) = 0 then []
        else ((f1 :: f2 :: rest).zip (labelsOf (f1 :: f2 :: rest))).map
          (entryOf (f1 :: f2 :: rest)) := rfl
    rw [hb] at h
    split at h
    · simp at h
    case isFalse hn =>
      rcases List.mem_map.mp h with ⟨fl, hfl, he⟩
      obtain ⟨hf1, _⟩ := List.of_mem_zip hfl
      subst he
      refine ⟨fl.1, hf1, rfl, rfl, ?_, Or.inr rfl⟩
      exact entry_level_mem (f1 :: f2 :: rest) fl hn

theorem build_ok_shape {pages : List Page} {r : OutlineResult} (h : build pages = .ok r) :
    (pages = [] ∧ r = ⟨"No Content Found", []⟩) ∨
      ((assign_heading_levels (headingCandidatesOf pages)).all
          (fun e => e.y_pos.isSome) = true ∧
        r.title = pyStrip (pyReplaceNl (rawTitleOf pages)) ∧
        r.outline = (pySortList outlineLe
          (assign_heading_levels (headingCandidatesOf pages))).map stripY) := by
  cases pages with
  | nil =>
    left
    refine ⟨rfl, ?_⟩
    have h2 : Except.ok (ε := String) (⟨"No Content Found", []⟩ : OutlineResult) = .ok r := h
    injection h2 with h3
    exact h3.symm
  | cons p ps =>
    right
    have hb : build (p :: ps) =
        if (assign_heading_levels (headingCandidatesOf (p :: ps))).all
            (fun e => e.y_pos.isSome) then
          Except.ok (OutlineResult.mk (pyStrip (pyReplaceNl (rawTitleOf (p :: ps))))
            ((pySortList outlineLe
              (assign_heading_levels (headingCandidatesOf (p :: ps)))).map stripY))
        else Except.error "KeyError: y_pos" := rfl
    rw [hb] at h
    split at h
    case isTrue hall =>
      injection h with h2
      rw [← h2]
      exact ⟨hall, rfl, rfl⟩
    · cases h

theorem outlineLe_total (a b : LEntry) : outlineLe a b = true ∨ outlineLe b a = true := by
  unfold outlineLe
  simp only [Bool.or_eq_true, decide_eq_true_eq, Bool.and_eq_true, beq_iff_eq]
  rcases Nat.lt_trichotomy a.page b.page with h | h | h
  · exact Or.inl (Or.inl h)
  · rcases Frac.le_total (a.y_pos.getD default) (b.y_pos.getD default) with hy | hy
    · exact Or.inl (Or.inr ⟨h, hy⟩)
    · exact Or.inr (Or.inr ⟨h.symm, hy⟩)
  · exact Or.inr (Or.inl h)

theorem outlineLe_trans (a b c : LEntry) (hab : outlineLe a b = true)
    (hbc : outlineLe b c = true) : outlineLe a c = true := by
  unfold outlineLe at *
  simp only [Bool.or_eq_true, decide_eq_true_eq, Bool.and_eq_true, beq_iff_eq] at hab hbc ⊢
  rcases hab with h1 | ⟨h1, hy1⟩ <;> rcases hbc with h2 | ⟨h2, hy2⟩
  · exact Or.inl (by omega)
  · exact Or.inl (by omega)
  · exact Or.inl (by omega)
  · exact Or.inr ⟨h1.trans h2, Frac.le_trans hy1 hy2⟩

theorem heading_true_facts {f : Features} (h : is_potential_heading f = true) :
    f.text ≠ "" ∧ f.word_count < 15 := by
  unfold is_potential_heading at h
  split at h
  · cases h
  case isFalse h0 =>
    push_neg at h0
    obtain ⟨ht, _, _, _⟩ := h0
    split at h
    case isTrue h1 => exact ⟨ht, h1.2⟩
    split at h
    case isTrue h2 => exact ⟨ht, h2.2⟩
    split at h
    case isTrue h3 => exact ⟨ht, h3.2⟩
    split at h
    case isTrue h4 => exact ⟨ht, h4.2.2⟩
    · cases h

theorem mem_headingCandidatesOf {pages : List Page} {f : Features}
    (h : f ∈ headingCandidatesOf pages) :
    is_potential_heading f = true ∧ f.text ≠ rawTitleOf pages ∧
      ∃ b ∈ coreBlocksOf pages, f = get_block_features b (widthOf pages) := by
  unfold headingCandidatesOf at h
  rcases List.mem_filter.mp h with ⟨h1, h2⟩
  rcases List.mem_filter.mp h1 with ⟨h3, h4⟩
  rcases List.mem_map.mp h3 with ⟨b, hb, hfb⟩
  refine ⟨h4, ?_, b, hb, hfb.symm⟩
  simpa using h2

theorem mem_build_outline {pages : List Page} {r : OutlineResult} {e : OEntry}
    (h : build pages = .ok r) (he : e ∈ r.outline) :
    ∃ f ∈ headingCandidatesOf pages, e.text = f.text ∧
      (e.level = "H1" ∨ e.level = "H2" ∨ e.level = "H3") := by
  rcases build_ok_shape h with ⟨_, hre⟩ | ⟨_, _, hout⟩
  · subst hre
    simp at he
  · rw [hout] at he
    rcases List.mem_map.mp he with ⟨le', hle', hes⟩
    have hmem : le' ∈ assign_heading_levels (headingCandidatesOf pages) :=
      (perm_pySortList outlineLe _).subset hle'
    rcases mem_assign_heading_levels hmem with ⟨f, hf, ht, _, hl, _⟩
    subst hes
    exact ⟨f, hf, ht, hl⟩

/-- The source's `max`-based title choice agrees with the claim's
"first candidate attaining the maximum score" characterisation. -/
theorem extract_title_eq_spec (blocks : List Block) (pw : Frac) :
    extract_title blocks pw =
      match titleSpecPick (titleCandidates (firstPageBlocks blocks) pw) with
      | some t => t
      | none => "Untitled Document" := by
  unfold extract_title
  split
  case isTrue hfpb =>
    have he : firstPageBlocks blocks = [] := List.isEmpty_iff.mp hfpb
    rw [he]
    rfl
  case isFalse hfpb =>
    rcases hc : titleCandidates (firstPageBlocks blocks) pw with _ | ⟨c, cs⟩
    · rfl
    · have hfind := find?_foldl_pickMax cs c
      have hM : Frac.veq (maxVal c.1 cs) (cs.foldl pickMax c).1 = true :=
        maxVal_veq_foldl_pickMax cs c.1 c (Frac.veq_refl c.1)
      have hfun : (fun x : Frac × String => Frac.veq x.1 (maxVal c.1 cs)) =
          (fun x : Frac × String => Frac.veq x.1 ((cs.foldl pickMax c).1)) := by
        funext x
        exact Frac.veq_congr hM x.1
      show (cs.foldl pickMax c).2 =
        match ((c :: cs).find? (fun x => Frac.veq x.1 (maxVal c.1 cs))).map
            (fun x => x.2) with
        | some t => t
        | none => "Untitled Document"
      rw [hfun, hfind]
      rfl

/-- The Boolean sort key of the final outline sort, as a proposition. -/
theorem outlineLe_iff {a b : LEntry} :
    outlineLe a b = true ↔
      (a.page < b.page ∨
        (a.page = b.page ∧ (a.y_pos.getD default).le (b.y_pos.getD default))) := by
  unfold outlineLe
  simp [Bool.or_eq_true, decide_eq_true_eq, Bool.and_eq_true, beq_iff_eq]

/-! ### The claims -/

/-- Claim C1 as stated is false: after sorting by `(top, x0)`, the code
(line 77 of `pdf_processor.py`) compares an incoming fragment's `top` with
the current line's LAST fragment, not its FIRST.  With tops 0, 1.5, 3 the
drift never reaches 2 between neighbours, so the code keeps one line,
while the claim's first-fragment rule starts a new line at top 3. -/
theorem c1_counterexample :
    linesOf [driftW1, driftW2, driftW3] = [[driftW1, driftW2, driftW3]] ∧
    linesOfFirstRule [driftW1, driftW2, driftW3] = [[driftW1, driftW2], [driftW3]] ∧
    linesOf [driftW1, driftW2, driftW3] ≠ linesOfFirstRule [driftW1, driftW2, driftW3] := by
  decide

/-- Claim C1 (amended): in line assembly a fragment starts a new line
exactly when its `top` differs by at least 2 units from the top of the
current line's LAST (most recently appended) fragment; otherwise it is
appended.  Formally: `linesOf` is adjacent chunking of the sorted fragment
list under the `< 2` tolerance, with each chunk re-sorted by `x0`. -/
theorem c1_amended_last_rule (words : List Word) :
    linesOf words = (chunkByAdj closeTops (pySortList wordLe words)).map sortByX0 := by
  unfold linesOf chunkByAdj
  cases hs : pySortList wordLe words with
  | nil => rfl
  | cons w ws =>
    have h := buildLinesAux_eq_chunkAdj ws [w] (by simp)
    simpa using h

/-- Claim C2 as stated is false: the block "1. Introduction" passes every
disqualifier and has 2 words, yet `^\d+(\.\d+)*\s+` requires whitespace
directly after the digit groups, so the trailing dot makes the numeric
prefix signal fail and the block (size 10, not bold, not upper-case) is
not a heading candidate. -/
theorem c2_counterexample :
    (get_block_features c2BadBlock (Frac.ofInt 595)).text = "1. Introduction" ∧
    (get_block_features c2BadBlock (Frac.ofInt 595)).word_count = 2 ∧
    (get_block_features c2BadBlock (Frac.ofInt 595)).is_toc = false ∧
    pyIsDigitStr (get_block_features c2BadBlock (Frac.ofInt 595)).text = false ∧
    is_potential_heading (get_block_features c2BadBlock (Frac.ofInt 595)) = false := by
  decide

/-- Claim C2 (amended): a non-disqualified block whose text matches
`^\d+(\.\d+)*\s+` — digits, optional dot-digit groups, then whitespace,
as in "1.2 Background" or "1.2.3 Overview" — with fewer than 15 words is
a heading candidate; a trailing dot as in "1. Introduction" does not
match the pattern. -/
theorem c2_amended_numeric_rule :
    (∀ f : Features, f.text ≠ "" → f.is_toc = false → pyIsDigitStr f.text = false →
      f.starts_with_number = true → f.word_count < 15 → is_potential_heading f = true) ∧
    startsWithNumOutline "1.2.3 Overview" = true ∧
    startsWithNumOutline "1.2 Background" = true ∧
    startsWithNumOutline "1. Introduction" = false := by
  refine ⟨?_, by decide, by decide, by decide⟩
  intro f h1 h2 h3 h4 h5
  unfold is_potential_heading
  have hd : ¬(f.text = "" ∨ 20 < f.word_count ∨ f.is_toc = true ∨
      pyIsDigitStr f.text = true) := by
    push_neg
    exact ⟨h1, by omega, by simp [h2], by simp [h3]⟩
  rw [if_neg hd]
  by_cases hbig : (Frac.ofInt 14).lt f.font_size ∧ f.word_count < 15
  · rw [if_pos hbig]
  · rw [if_neg hbig, if_pos ⟨h4, h5⟩]

/-- Witness for the amended claim C2, at the features of "1.2 Background". -/
theorem c2_witness :
    is_potential_heading (get_block_features c2GoodBlock (Frac.ofInt 595)) = true :=
  c2_amended_numeric_rule.1 (get_block_features c2GoodBlock (Frac.ofInt 595))
    (by decide) (by decide) (by decide) (by decide) (by decide)

/-- Claim C3: level assignment.  Zero candidates give an empty outline;
one candidate is assigned H1 unconditionally; every assigned level is one
of H1/H2/H3 (k is capped at 3); and the scenario with font sizes
18 / 14 / 10 yields H1, H2, H3 in reading order (centers sorted
descending, largest → H1). -/
theorem c3_level_assignment :
    assign_heading_levels [] = [] ∧
    (∀ f : Features, assign_heading_levels [f] =
      [{ level := "H1", text := f.text, page := f.original_block.page_num, y_pos := none }]) ∧
    (∀ (cands : List Features) (e : LEntry), e ∈ assign_heading_levels cands →
      (e.level = "H1" ∨ e.level = "H2" ∨ e.level = "H3")) ∧
    build c3pages = .ok c3result := by
  refine ⟨rfl, fun f => rfl, ?_, by decide⟩
  intro cands e he
  rcases mem_assign_heading_levels he with ⟨f, _, _, _, hl, _⟩
  exact hl

/-- Witness for claim C3's membership conjunct, at a singleton candidate
list. -/
theorem c3_witness :
    ((⟨"H1", "x", 1, none⟩ : LEntry).level = "H1" ∨
      (⟨"H1", "x", 1, none⟩ : LEntry).level = "H2" ∨
      (⟨"H1", "x", 1, none⟩ : LEntry).level = "H3") :=
  c3_level_assignment.2.2.1 [c3SingleFeature] ⟨"H1", "x", 1, none⟩ (by decide)

/-- Claim C4: an empty page list yields the sentinel result, not an
error. -/
theorem c4_empty_pages :
    build [] = .ok { title := "No Content Found", outline := [] } := rfl

/-- Claim C5: whenever `build` returns a result, its outline is the
`y_pos`-stripped image of the sorted leveled-entry list itself (not of an
arbitrary list): `pySortList outlineLe (assign_heading_levels ...)`.  That
list is pairwise sorted by page ascending and, within a page, by `y_pos`
ascending, and every entry's `y_pos` is `some` of the top coordinate of an
originating heading-candidate block (`_assign_heading_levels` line 121),
so the within-page order is by the originating block's top.  The returned
entry type `OEntry` carries no `y_pos` field, so the temporary sort key is
absent from every returned entry. -/
theorem c5_sorted_outline :
    ∀ (pages : List Page) (r : OutlineResult), build pages = .ok r →
      r.outline = (pySortList outlineLe
        (assign_heading_levels (headingCandidatesOf pages))).map stripY ∧
      List.Pairwise (fun a b => a.page < b.page ∨
          (a.page = b.page ∧ (a.y_pos.getD default).le (b.y_pos.getD default)))
        (pySortList outlineLe (assign_heading_levels (headingCandidatesOf pages))) ∧
      (∀ e ∈ pySortList outlineLe (assign_heading_levels (headingCandidatesOf pages)),
        ∃ f ∈ headingCandidatesOf pages, e.y_pos = some f.original_block.top) := by
  intro pages r h
  have hsorted : List.Pairwise (fun a b : LEntry => a.page < b.page ∨
      (a.page = b.page ∧ (a.y_pos.getD default).le (b.y_pos.getD default)))
      (pySortList outlineLe (assign_heading_levels (headingCandidatesOf pages))) := by
    refine (sorted_pySortList outlineLe_total outlineLe_trans _).imp ?_
    intro a b hab
    exact outlineLe_iff.mp hab
  rcases build_ok_shape h with ⟨hpe, hre⟩ | ⟨hall, _, hout⟩
  · subst hpe
    subst hre
    refine ⟨rfl, hsorted, ?_⟩
    intro e he
    have hnil : pySortList outlineLe
        (assign_heading_levels (headingCandidatesOf ([] : List Page))) = [] := rfl
    rw [hnil] at he
    cases he
  · refine ⟨hout, hsorted, ?_⟩
    intro e he
    have hmem : e ∈ assign_heading_levels (headingCandidatesOf pages) :=
      (perm_pySortList outlineLe _).subset he
    rcases mem_assign_heading_levels hmem with ⟨f, hf, _, _, _, hy | hy⟩
    · have hsome := List.all_eq_true.mp hall e hmem
      rw [hy] at hsome
      cases hsome
    · exact ⟨f, hf, hy⟩

/-- Witness for claim C5 at the three-heading scenario. -/
theorem c5_witness :
    c3result.outline = (pySortList outlineLe
      (assign_heading_levels (headingCandidatesOf c3pages))).map stripY ∧
    List.Pairwise (fun a b => a.page < b.page ∨
        (a.page = b.page ∧ (a.y_pos.getD default).le (b.y_pos.getD default)))
      (pySortList outlineLe (assign_heading_levels (headingCandidatesOf c3pages))) ∧
    (∀ e ∈ pySortList outlineLe (assign_heading_levels (headingCandidatesOf c3pages)),
      ∃ f ∈ headingCandidatesOf c3pages, e.y_pos = some f.original_block.top) :=
  c5_sorted_outline c3pages c3result (by decide)

/-- Claim C6 as stated is false: the duplicate-title filter (line 143 of
`hierarchy_builder.py`) compares candidate texts against the title BEFORE
`replace("\n", " ")` (line 153).  On `c6pages` the extracted title is
"Big\nTitle", the returned title is "Big Title", and the outline contains
an entry whose text equals the returned title. -/
theorem c6_counterexample :
    build c6pages = .ok c6result ∧
    ∃ e ∈ c6result.outline, e.text = c6result.title := by
  refine ⟨by decide, ⟨⟨"H1", "Big Title", 1⟩, by decide, rfl⟩⟩

/-- Claim C6 (amended): no outline entry's text equals the
pre-normalisation extracted title (the value the filter actually compares
against); entries can coincide with the RETURNED title only when the
extracted title contained a newline. -/
theorem c6_amended_raw_title :
    ∀ (pages : List Page) (r : OutlineResult) (e : OEntry),
      build pages = .ok r → e ∈ r.outline → e.text ≠ rawTitleOf pages := by
  intro pages r e h he
  rcases mem_build_outline h he with ⟨f, hf, ht, _⟩
  rcases mem_headingCandidatesOf hf with ⟨_, hne, _⟩
  rw [ht]
  exact hne

/-- Witness for the amended claim C6. -/
theorem c6_witness : ("Heading A" : String) ≠ rawTitleOf c3pages :=
  c6_amended_raw_title c3pages c3result ⟨"H1", "Heading A", 1⟩ (by decide) (by decide)

/-- Claim C7 is right and the code is wrong: on a well-formed input with
exactly one heading candidate, the single-candidate branch of
`_assign_heading_levels` (line 96) builds its entry without `y_pos`, and
`build` then evaluates `x['y_pos']` for every entry (CPython computes all
sort keys up front) and later runs `del item['y_pos']` — a `KeyError`
escapes `build`, contradicting the spec's no-exception guarantee. -/
theorem c7_single_candidate_keyerror :
    (headingCandidatesOf c7pages).length = 1 ∧
    build c7pages = .error "KeyError: y_pos" := by
  decide

/-- Claim C8: the title choice.  `_extract_title` returns the text of the
first candidate attaining the maximum score (candidates are the page-1
blocks with top ≤ 400, at most 25 words and non-empty stripped text, each
scored `font_size * (1.5 if centered) * (1.2 if bold)` — the definitions
`titleCandidates` and `titleScore`), or "Untitled Document" when there are
no candidates; and every result `build` returns carries that title with
newlines replaced by spaces (and re-stripped). -/
theorem c8_title_extraction :
    (∀ (blocks : List Block) (pw : Frac),
      extract_title blocks pw =
        match titleSpecPick (titleCandidates (firstPageBlocks blocks) pw) with
        | some t => t
        | none => "Untitled Document") ∧
    (∀ (pages : List Page) (r : OutlineResult), build pages = .ok r → pages ≠ [] →
      r.title = pyStrip (pyReplaceNl (rawTitleOf pages))) := by
  refine ⟨extract_title_eq_spec, ?_⟩
  intro pages r h hne
  rcases build_ok_shape h with ⟨he, _⟩ | ⟨_, ht, _⟩
  · exact absurd he hne
  · exact ht

/-- Witness for claim C8 at the newline-title input. -/
theorem c8_witness : c6result.title = pyStrip (pyReplaceNl (rawTitleOf c6pages)) :=
  c8_title_extraction.2 c6pages c6result (by decide) (by decide)

/-- Claim C9 as stated is false in its "exactly" part: two far-apart
fragments both reading "the" produce two blocks whose texts are both
"the"; the first fragment's text occurs in the text of the second block,
which does not contain it. -/
theorem c9_counterexample :
    blockPartition (linesOf [theW1, theW2]) = [[[theW1]], [[theW2]]] ∧
    (mkBlock 1 [[theW2]]).text = theW1.text ∧
    theW1 ∉ ([[theW2]] : List (List Word)).flatten ∧
    (group_words_into_blocks [theW1, theW2] 1).map (fun b => b.text) = ["the", "the"] := by
  decide

/-- Claim C9 (amended): for every non-empty fragment list, the lines
partition the fragments (as a multiset), the blocks partition the lines,
at least one block is emitted, and each fragment's text occurs in the
concatenated text of the block containing it (it may also occur in other
blocks' texts). -/
theorem c9_grouping (words : List Word) (pn : Nat) (hw : words ≠ []) :
    ((linesOf words).flatten).Perm words ∧
    (blockPartition (linesOf words)).flatten = linesOf words ∧
    group_words_into_blocks words pn ≠ [] ∧
    (∀ bl ∈ blockPartition (linesOf words), ∀ w ∈ bl.flatten,
      ∃ p q : List Char, ((mkBlock pn bl).text).data = p ++ w.text.data ++ q) := by
  refine ⟨perm_flatten_linesOf words, flatten_blockPartition _, ?_, ?_⟩
  · unfold group_words_into_blocks
    rw [if_neg (by simpa using hw)]
    have hl : linesOf words ≠ [] := by
      unfold linesOf
      cases hs : pySortList wordLe words with
      | nil =>
        have hp := perm_pySortList wordLe words
        rw [hs] at hp
        exact absurd hp.symm.eq_nil hw
      | cons w ws => exact buildLinesAux_ne_nil ws [w]
    cases hlo : linesOf words with
    | nil => exact absurd hlo hl
    | cons ln rest =>
      intro hmap
      have hbp : blockPartition (ln :: rest) = [] := List.map_eq_nil_iff.mp hmap
      exact blockPartitionAux_ne_nil rest [ln] hbp
  · intro bl _ w hwbl
    exact word_text_occurs hwbl pn

/-- Witness for the amended claim C9 at the two-fragment input. -/
theorem c9_witness :
    ((linesOf [theW1, theW2]).flatten).Perm [theW1, theW2] ∧
    (blockPartition (linesOf [theW1, theW2])).flatten = linesOf [theW1, theW2] ∧
    group_words_into_blocks [theW1, theW2] 1 ≠ [] ∧
    (∀ bl ∈ blockPartition (linesOf [theW1, theW2]), ∀ w ∈ bl.flatten,
      ∃ p q : List Char, ((mkBlock 1 bl).text).data = p ++ w.text.data ++ q) :=
  c9_grouping [theW1, theW2] 1 (by decide)

/-- Claim C10: every outline entry `build` returns has non-empty text and
fewer than 15 words — each qualifying heading signal requires a word
count below 15, so no 15-to-20-word block can appear. -/
theorem c10_outline_text :
    ∀ (pages : List Page) (r : OutlineResult) (e : OEntry),
      build pages = .ok r → e ∈ r.outline →
      e.text ≠ "" ∧ pyWordCount e.text < 15 := by
  intro pages r e h he
  rcases mem_build_outline h he with ⟨f, hf, ht, _⟩
  rcases mem_headingCandidatesOf hf with ⟨hhead, _, b, _, hfb⟩
  rcases heading_true_facts hhead with ⟨htext, hwc⟩
  have hcount : pyWordCount f.text = f.word_count := by
    rw [hfb]
    rfl
  rw [ht]
  exact ⟨htext, by rw [hcount]; exact hwc⟩

/-- Witness for claim C10 at the three-heading scenario. -/
theorem c10_witness :
    ("Heading A" : String) ≠ "" ∧ pyWordCount "Heading A" < 15 :=
  c10_outline_text c3pages c3result ⟨"H1", "Heading A", 1⟩ (by decide) (by decide)

end PdfOutline
